import Mathlib

/-!
Shallow embedding of the gerrit repository's comment-thread summarisation
(`thread/thread.go`) and of the REST client's URL handling (`client.go`).

Modelling conventions:
* Go machine integers are modelled as `Int`; `Timestamp.Time()` values are
  modelled as `Int` (only ordering and equality of timestamps are used, via
  `time.Time.Before`, which is a strict order).
* Go maps are modelled as association lists `List (String × α)`; `delete` is
  `mapDelete`, indexing is `mapGet` (absent key gives the zero value via
  `Option.getD`), assignment is `mapSet`.
* Go map *iteration* order is unspecified.  The input collection of comments
  is an ordered per-path mapping (the spec's Engine contract processes "every
  comment in input order, across all paths"), so it is modelled as an
  association list whose order is the iteration order of one run.  The one
  remaining internal map iteration whose order is observable is the traversal
  of the `threads` map when building `ucs` (thread.go:133); it is modelled by
  an explicit parameter `iter` which theorems constrain to be a permutation.
* `sort.Slice` (thread.go:137-139, comparison `Updated.Time().Before`) is an
  unstable sort; it is modelled by a stable insertion sort applied after
  `iter`, which reaches exactly the sorted rearrangements reachable by the
  original.
* Fallible remote calls (`GetChange`, `ListChangeComments`) are modelled by
  `Except` inputs; `fmt.Errorf("...: %w", err)` wrapping is modelled by
  `WrappedError`, and the number of remote calls performed is returned
  alongside the result.
-/

namespace Gerrit

/-- `AccountInfo` (part_002): Name, Email, Username. -/
structure AccountInfo where
  name : String
  email : String
  username : String
deriving Repr, DecidableEq

/-- `CommentInfo` (part_002): the fields read by `Summarise`. -/
structure CommentInfo where
  id : String
  updated : Int
  patchSet : Int
  path : String
  line : Int
  author : AccountInfo
  inReplyTo : String
  message : String
  unresolved : Bool
deriving Repr, DecidableEq

/-- `CommitInfo` (part_002): the fields read by `Summarise`. -/
structure CommitInfo where
  subject : String
  message : String
deriving Repr, DecidableEq

/-- `RevisionInfo` (part_002): the fields read by `Summarise`. -/
structure RevisionInfo where
  number : Int
  commit : CommitInfo
deriving Repr, DecidableEq

/-- `ChangeMessageInfo` (part_002): the fields read by `Summarise`.
`Author` is a pointer in Go and is dereferenced at thread.go:76-80; it is
modelled as a value. -/
structure ChangeMessageInfo where
  id : String
  author : AccountInfo
  message : String
deriving Repr, DecidableEq

/-- `ChangeInfo` (part_002): the fields read by `Summarise`.  The Go maps
`Reviewers` and `Revisions` are modelled as association lists. -/
structure ChangeInfo where
  project : String
  unresolvedCommentCount : Int
  totalCommentCount : Int
  messages : List ChangeMessageInfo
  subject : String
  branch : String
  created : Int
  updated : Int
  submitted : Int
  number : Int
  reviewers : List (String × List AccountInfo)
  revisions : List (String × RevisionInfo)
deriving Repr, DecidableEq

/-- Go `delete(m, k)`. -/
def mapDelete {α : Type} (m : List (String × α)) (k : String) : List (String × α) :=
  m.filter (fun kv => kv.1 != k)

/-- Go map lookup `v, ok := m[k]` (as an `Option`). -/
def mapGet {α : Type} (m : List (String × α)) (k : String) : Option α :=
  (m.find? (fun kv => kv.1 == k)).map Prod.snd

/-- Go map assignment `m[k] = v`. -/
def mapSet {α : Type} (m : List (String × α)) (k : String) (v : α) : List (String × α) :=
  mapDelete m k ++ [(k, v)]

/-- The two reconstruction maps of thread.go:106-107: `threads` maps the last
processed comment ID of a chain to the latest comment in that chain, and
`authors` maps it to the authors collected from the chain. -/
structure RecState where
  threads : List (String × CommentInfo)
  authors : List (String × List AccountInfo)
deriving Repr, DecidableEq

def initState : RecState := ⟨[], []⟩

/-- Body of the inner loop of thread.go:109-129 for one comment `c0` supplied
under path `path`:
1. if `c.Path` is empty it inherits `path` (lines 110-112);
2. if `c.InReplyTo` is non-empty, the entry it replies to is removed from
   `threads`, and the prior author list is taken from (and removed from)
   `authors` (lines 113-120; an absent key yields the zero value `nil`);
3. `c.Author` is appended and stored under `c.ID` (lines 122-123);
4. the comment is recorded as a live tip only when unresolved (lines 126-128). -/
def fixPath (path : String) (c0 : CommentInfo) : CommentInfo :=
  if c0.path = "" then { c0 with path := path } else c0

def processComment (st : RecState) (path : String) (c0 : CommentInfo) : RecState :=
  let c := fixPath path c0
  let pr :=
    if c.inReplyTo = "" then
      (([] : List AccountInfo), st.threads, st.authors)
    else
      ((mapGet st.authors c.inReplyTo).getD [],
        mapDelete st.threads c.inReplyTo,
        mapDelete st.authors c.inReplyTo)
  let as := pr.1 ++ [c.author]
  let authors2 := mapSet pr.2.2 c.id as
  let threads2 := if c.unresolved then mapSet pr.2.1 c.id c else pr.2.1
  ⟨threads2, authors2⟩

/-- The comments of a per-path collection in processing order: the nested
loop of thread.go:108-130 visits exactly these (path, comment) pairs. -/
def flattenComments : List (String × List CommentInfo) → List (String × CommentInfo)
  | [] => []
  | (p, cs) :: rest => cs.map (fun c => (p, c)) ++ flattenComments rest

/-- Run the reconstruction loop over a list of (path, comment) pairs. -/
def processFlat (st : RecState) (l : List (String × CommentInfo)) : RecState :=
  l.foldl (fun s pc => processComment s pc.1 pc.2) st

/-- The double loop of thread.go:108-130 over the whole collection. -/
def processAll (input : List (String × List CommentInfo)) : RecState :=
  processFlat initState (flattenComments input)

/-- The `out` list computed by the loop of thread.go:142-150: authors kept on
first occurrence of their username. -/
def dedupByUsername (as : List AccountInfo) : List AccountInfo :=
  (as.foldl
    (fun acc a =>
      if acc.2.contains a.username then acc
      else (acc.1 ++ [a], acc.2 ++ [a.username]))
    (([] : List AccountInfo), ([] : List String))).1

/-- The loop of thread.go:141-152.  For each entry it computes the
deduplicated list `out` but then executes `authors[k] = as` (line 151),
writing the ORIGINAL list back, so the map is left unchanged. -/
def applyAuthorsLoop (m : List (String × List AccountInfo)) :
    List (String × List AccountInfo) :=
  m.map (fun kv => (kv.1, (fun _out => kv.2) (dedupByUsername kv.2)))

/-- One insertion step of the sort of thread.go:137-139 (strictly-less
comparison `Updated.Time().Before`). -/
def insertByUpdated (c : CommentInfo) : List CommentInfo → List CommentInfo
  | [] => [c]
  | d :: ds => if c.updated < d.updated then c :: d :: ds else d :: insertByUpdated c ds

/-- `sort.Slice(ucs, ...)` of thread.go:137-139, modelled as a stable
insertion sort.  Composed with the arbitrary map-iteration permutation
applied to `ucs` beforehand, this reaches exactly the sorted rearrangements
the unstable original can produce. -/
def sortByUpdated (l : List CommentInfo) : List CommentInfo :=
  l.foldr insertByUpdated []

/-- `Thread` (thread.go:37-47).  The private back-reference `s` is used only
by `URL()` and is omitted. -/
structure Thread where
  path : String
  line : Int
  patchSet : Int
  authors : List AccountInfo
  message : String
  lastComment : CommentInfo
deriving Repr, DecidableEq

/-- Thread reconstruction, thread.go:106-152 and 171-181: run the loop,
collect the surviving tips in map-iteration order `iter`, sort them by
`updated`, run the (ineffective) author-deduplication loop, and build one
`Thread` per surviving tip. -/
def reconstructThreads (input : List (String × List CommentInfo))
    (iter : List CommentInfo → List CommentInfo) : List Thread :=
  let st := processAll input
  let ucs := sortByUpdated (iter (st.threads.map Prod.snd))
  let authorsFinal := applyAuthorsLoop st.authors
  ucs.map (fun uc =>
    { path := uc.path
      line := uc.line
      patchSet := uc.patchSet
      authors := (mapGet authorsFinal uc.id).getD []
      message := uc.message
      lastComment := uc })

/-- `Summary` (thread.go:14-34). -/
structure Summary where
  changeID : String
  project : String
  branch : String
  subject : String
  latestCommitMessage : String
  allReviewers : List AccountInfo
  activeReviewers : List AccountInfo
  cced : List AccountInfo
  created : Int
  updated : Int
  submitted : Int
  comments : Int
  unresolvedComments : Int
  threads : List Thread
deriving Repr, DecidableEq

/-- `fmt.Errorf("<context>: %w", err)`: a short operation description
wrapping the unchanged underlying error. -/
structure WrappedError (ε : Type) where
  context : String
  cause : ε
deriving Repr, DecidableEq

/-- Commit-message extraction of thread.go:63-68: set only when the change
has exactly one revision. -/
def commitMessageOf (revs : List (String × RevisionInfo)) : String :=
  match revs with
  | [(_, x)] => x.commit.message
  | _ => ""

/-- Active-reviewer scan of thread.go:73-81: first-seen message author per
username. -/
def activeReviewersOf (msgs : List ChangeMessageInfo) : List AccountInfo :=
  (msgs.foldl
    (fun acc m =>
      if acc.2.contains m.author.username then acc
      else (acc.1 ++ [m.author], acc.2 ++ [m.author.username]))
    (([] : List AccountInfo), ([] : List String))).1

/-- `Summarise` (thread.go:54-183).  The two remote calls are modelled by
their results `getChangeRes` and `listCommentsRes`; the returned `Nat` is
the number of remote calls performed (each call is issued at most once, so a
count of 1 means `ListChangeComments` was never invoked).  `iter` is the
map-iteration order of thread.go:133 as in `reconstructThreads`. -/
def summarise {ε : Type} (getChangeRes : Except ε ChangeInfo)
    (listCommentsRes : Except ε (List (String × List CommentInfo)))
    (iter : List CommentInfo → List CommentInfo) :
    Except (WrappedError ε) Summary × Nat :=
  match getChangeRes with
  | .error e => (.error ⟨"could not get change", e⟩, 1)
  | .ok ch =>
    let commitMessage := commitMessageOf ch.revisions
    let reviewers := (mapGet ch.reviewers "REVIEWER").getD []
    let cced := (mapGet ch.reviewers "CC").getD []
    let activeReviewers := activeReviewersOf ch.messages
    if ch.unresolvedCommentCount = 0 then
      (.ok
        { changeID := toString ch.number
          project := ch.project
          branch := ch.branch
          subject := ch.subject
          latestCommitMessage := commitMessage
          allReviewers := reviewers
          activeReviewers := activeReviewers
          cced := cced
          created := ch.created
          updated := ch.updated
          submitted := ch.submitted
          comments := ch.totalCommentCount
          unresolvedComments := ch.unresolvedCommentCount
          threads := [] }, 1)
    else
      match listCommentsRes with
      | .error e => (.error ⟨"could not list change comments", e⟩, 2)
      | .ok comments =>
        (.ok
          { changeID := toString ch.number
            project := ch.project
            branch := ch.branch
            subject := ch.subject
            latestCommitMessage := commitMessage
            allReviewers := reviewers
            activeReviewers := activeReviewers
            cced := cced
            created := ch.created
            updated := ch.updated
            submitted := ch.submitted
            comments := ch.totalCommentCount
            unresolvedComments := ch.unresolvedCommentCount
            threads := reconstructThreads comments iter }, 2)

/-- The Threads list of a summarisation result (empty when it failed). -/
def resultThreads {ε : Type} (r : Except (WrappedError ε) Summary × Nat) : List Thread :=
  match r.1 with
  | .ok s => s.threads
  | .error _ => []

/-- `strings.HasPrefix(s, p)`, on the character-list view of strings. -/
def strStarts (s p : String) : Bool :=
  p.data.isPrefixOf s.data

/-- `strings.TrimPrefix(url, "/")` (client.go:50): strips a single leading
slash if present. -/
def trimOneLeadingSlash (url : String) : String :=
  if strStarts url "/" then ⟨url.data.drop 1⟩ else url

/-- The HTTP request assembled by `Client.Call` (client.go:61-69): method,
final URL, optional JSON body (modelled as its serialised form), and the
basic-auth credentials.  Transport-level concerns past `Do` are outside the
claims. -/
structure HttpRequest where
  method : String
  url : String
  body : Option String
  user : String
  pass : String
deriving Repr, DecidableEq

/-- Outcome of the URL-handling portion of `Client.Call` (client.go:46-71):
either the guard of line 47-49 rejects the URL before any request exists, or
a single request is issued and handed to the transport. -/
inductive CallResult (α : Type) where
  | invalidUrl (url : String)
  | issued (req : HttpRequest) (resp : α)
deriving Repr, DecidableEq

/-- `Client.Call` (client.go:46-71) up to the point the request is handed to
the underlying `http.Client.Do`, which is modelled by `transport`.  URLs
beginning with "/a/" are rejected (line 47-49); otherwise one leading "/" is
stripped (line 50) and the request targets `root + "/a/" + url` (line 61). -/
def call {α : Type} (transport : HttpRequest → α) (root user pass method url : String)
    (body : Option String) : CallResult α :=
  if strStarts url "/a/" then
    .invalidUrl url
  else
    let url2 := trimOneLeadingSlash url
    let req : HttpRequest := ⟨method, root ++ "/a/" ++ url2, body, user, pass⟩
    .issued req (transport req)

/-- Modelled from the spec: §3 defines a Chain as "an implicit entity — the
set of comments connected transitively via `InReplyTo`"; the code never
materialises it.  This fold assigns every comment ID its chain root: a root
comment is its own root, and a reply inherits the root of its parent as
known when the reply is processed.  The second component records, per chain
root, the most recently processed comment of that chain. -/
def chainStep (st : (String → String) × (String → Option String))
    (c : CommentInfo) : (String → String) × (String → Option String) :=
  if c.inReplyTo = "" then
    (fun y => if y = c.id then c.id else st.1 y,
      fun r => if r = c.id then some c.id else st.2 r)
  else
    (fun y => if y = c.id then st.1 c.inReplyTo else st.1 y,
      fun r => if r = st.1 c.inReplyTo then some c.id else st.2 r)

def chainFold (l : List (String × CommentInfo)) :
    (String → String) × (String → Option String) :=
  l.foldl (fun st pc => chainStep st pc.2) (id, fun _ => none)

/-- Chain root of each comment ID after processing `l` (see `chainFold`). -/
def rootAfter (l : List (String × CommentInfo)) : String → String :=
  (chainFold l).1

/-- Modelled from the spec: well-formedness of a comment sequence, under
which "chain" is meaningful (spec §3, §4.1): every comment has a non-empty
ID not seen before, and a reply refers to an already-seen ID that no earlier
comment has replied to (each comment acquires at most one reply, i.e. chains
are linear and supplied in order).  `seenIds` and `seenReplies` accumulate
the IDs and the reply targets already processed. -/
def wfComments (seenIds seenReplies : List String) :
    List (String × CommentInfo) → Bool
  | [] => true
  | pc :: rest =>
    let c := pc.2
    c.id != "" && !(seenIds.contains c.id) &&
      (c.inReplyTo == "" ||
        (seenIds.contains c.inReplyTo && !(seenReplies.contains c.inReplyTo))) &&
      wfComments (seenIds ++ [c.id])
        (if c.inReplyTo = "" then seenReplies else seenReplies ++ [c.inReplyTo]) rest

/-- Invariant carried through the reconstruction loop, relating the live-tip
map to the ghost chain bookkeeping of `chainStep`: every entry of `threads`
is keyed by its comment's ID, is unresolved, stems from a processed comment,
and is the most recently processed comment of its chain (`lf` at its chain
root points back at it); every processed comment that nothing has replied to
yet is the most recent of its chain; the chain-root map is the identity off
the processed IDs and maps processed IDs to processed IDs. -/
structure ChainInv (seenIds seenReplies : List String) (st : RecState)
    (rf : String → String) (lf : String → Option String) : Prop where
  tEntry : ∀ kv ∈ st.threads, kv.2.id = kv.1 ∧ kv.2.unresolved = true ∧
    kv.1 ∈ seenIds ∧ lf (rf kv.1) = some kv.1
  unrepliedLast : ∀ d ∈ seenIds, d ∉ seenReplies → lf (rf d) = some d
  rootFresh : ∀ x, x ∉ seenIds → rf x = x
  rootSeen : ∀ d ∈ seenIds, rf d ∈ seenIds

/-! Concrete fixtures used for counterexamples and witnesses. -/

def acctBob1 : AccountInfo := ⟨"Bob One", "bob1@example.org", "bob"⟩

def acctBob2 : AccountInfo := ⟨"Bob Two", "bob2@example.org", "bob"⟩

def acctCarol1 : AccountInfo := ⟨"Carol One", "carol1@example.org", "carol"⟩

def acctCarol2 : AccountInfo := ⟨"Carol Two", "carol2@example.org", "carol"⟩

def acctAmy : AccountInfo := ⟨"Amy", "amy@example.org", "amy"⟩

def acctCal : AccountInfo := ⟨"Cal", "cal@example.org", "cal"⟩

/-- A change on the slow path (one unresolved comment reported). -/
def chBase : ChangeInfo :=
  { project := "proj", unresolvedCommentCount := 1, totalCommentCount := 2
    messages := [], subject := "subj", branch := "main", created := 1, updated := 9
    submitted := 0, number := 42, reviewers := [], revisions := [] }

/-- A change on the fast path (no unresolved comments reported). -/
def chFast : ChangeInfo :=
  { project := "proj", unresolvedCommentCount := 0, totalCommentCount := 3
    messages := [⟨"m1", acctAmy, "hello"⟩], subject := "subj", branch := "main"
    created := 1, updated := 9, submitted := 0, number := 7
    reviewers := [("REVIEWER", [acctBob1]), ("CC", [acctCal])]
    revisions := [("rev1", ⟨1, ⟨"s", "cm"⟩⟩)] }

/-- C1 failing input: a chain of two unresolved comments whose authors are
distinct accounts sharing the username "bob". -/
def cA1 : CommentInfo := ⟨"a1", 1, 1, "f", 3, acctBob1, "", "m1", true⟩

def cB1 : CommentInfo := ⟨"b1", 2, 1, "f", 3, acctBob2, "a1", "m2", true⟩

def cmtsC1 : List (String × List CommentInfo) := [("f", [cA1, cB1])]

/-- C2 failing input: root and reply, both unresolved, same username. -/
def cA2 : CommentInfo := ⟨"a2", 1, 1, "f", 3, acctCarol1, "", "m1", true⟩

def cB2 : CommentInfo := ⟨"b2", 2, 1, "f", 3, acctCarol2, "a2", "m2", true⟩

def cmtsC2 : List (String × List CommentInfo) := [("f", [cA2, cB2])]

/-- A three-comment chain: unresolved root, resolved reply, unresolved
reply to the reply. -/
def cA3 : CommentInfo := ⟨"a3", 1, 1, "f", 1, acctAmy, "", "ma", true⟩

def cB3 : CommentInfo := ⟨"b3", 2, 1, "f", 1, acctBob1, "a3", "mb", false⟩

def cC3 : CommentInfo := ⟨"c3", 3, 1, "f", 1, acctCal, "b3", "mc", true⟩

def cmtsC3 : List (String × List CommentInfo) := [("f", [cA3, cB3, cC3])]

/-- A comment whose `InReplyTo` references an ID never seen. -/
def cD7 : CommentInfo := ⟨"d7", 4, 1, "f", 1, acctCal, "ghost", "md", true⟩

/-- C9 failing input: two independent unresolved roots whose tips share the
same `updated` timestamp. -/
def cR1 : CommentInfo := ⟨"r1", 5, 1, "f", 1, acctAmy, "", "x", true⟩

def cR2 : CommentInfo := ⟨"r2", 5, 1, "g", 2, acctCal, "", "y", true⟩

def cmtsC9 : List (String × List CommentInfo) := [("f", [cR1]), ("g", [cR2])]

def chC9 : ChangeInfo := { chBase with unresolvedCommentCount := 2 }

/-- Two independent unresolved roots with distinct `updated` timestamps. -/
def cS1 : CommentInfo := ⟨"s1", 5, 1, "f", 1, acctAmy, "", "x", true⟩

def cS2 : CommentInfo := ⟨"s2", 7, 1, "g", 2, acctCal, "", "y", true⟩

def cmtsC9w : List (String × List CommentInfo) := [("f", [cS1]), ("g", [cS2])]

/-! Basic lemmas about the Go-map model. -/

theorem mapGet_cons {α : Type} (kv : String × α) (m : List (String × α)) (k : String) :
    mapGet (kv :: m) k = if kv.1 = k then some kv.2 else mapGet m k := by
  by_cases h : kv.1 = k <;> simp [mapGet, List.find?_cons, h]

theorem mapDelete_cons {α : Type} (kv : String × α) (m : List (String × α)) (k : String) :
    mapDelete (kv :: m) k = if kv.1 = k then mapDelete m k else kv :: mapDelete m k := by
  by_cases h : kv.1 = k <;> simp [mapDelete, List.filter_cons, h]

theorem mapGet_mapDelete {α : Type} (m : List (String × α)) (k k2 : String) :
    mapGet (mapDelete m k) k2 = if k2 = k then none else mapGet m k2 := by
  induction m with
  | nil => simp [mapGet, mapDelete]
  | cons kv rest ih =>
    rw [mapDelete_cons]
    by_cases h : kv.1 = k
    · by_cases h2 : k2 = k
      · rw [if_pos h, ih, if_pos h2, if_pos h2]
      · have hne : kv.1 ≠ k2 := fun e => h2 (h.symm.trans e).symm
        rw [if_pos h, ih, if_neg h2, if_neg h2, mapGet_cons, if_neg hne]
    · by_cases h2 : k2 = k
      · have hne : kv.1 ≠ k2 := fun e => h (e.trans h2)
        rw [if_neg h, mapGet_cons, if_neg hne, ih, if_pos h2, if_pos h2]
      · rw [if_neg h, mapGet_cons, ih, if_neg h2, if_neg h2, mapGet_cons]

theorem mapGet_append {α : Type} (m1 m2 : List (String × α)) (k : String) :
    mapGet (m1 ++ m2) k =
      match mapGet m1 k with
      | some v => some v
      | none => mapGet m2 k := by
  induction m1 with
  | nil => simp [mapGet]
  | cons kv rest ih =>
    by_cases h : kv.1 = k
    · simp [List.cons_append, mapGet_cons, h]
    · simp [List.cons_append, mapGet_cons, h, ih]

theorem mapGet_mapSet {α : Type} (m : List (String × α)) (k : String) (v : α) (k2 : String) :
    mapGet (mapSet m k v) k2 = if k2 = k then some v else mapGet m k2 := by
  rw [mapSet, mapGet_append, mapGet_mapDelete]
  by_cases h2 : k2 = k
  · simp [h2, mapGet_cons]
  · rw [if_neg h2, if_neg h2]
    cases hm : mapGet m k2 with
    | none => simp [mapGet_cons, Ne.symm h2, mapGet]
    | some w => simp

theorem mapGet_eq_none_iff {α : Type} (m : List (String × α)) (k : String) :
    mapGet m k = none ↔ k ∉ m.map Prod.fst := by
  induction m with
  | nil => simp [mapGet]
  | cons kv rest ih =>
    rw [mapGet_cons]
    by_cases h : kv.1 = k
    · simp [h]
    · simp [h, ih, Ne.symm h]

theorem mem_mapDelete {α : Type} (m : List (String × α)) (k : String) (kv : String × α) :
    kv ∈ mapDelete m k ↔ kv ∈ m ∧ kv.1 ≠ k := by
  simp [mapDelete, List.mem_filter]

theorem mem_mapSet {α : Type} (m : List (String × α)) (k : String) (v : α) (kv : String × α) :
    kv ∈ mapSet m k v ↔ (kv ∈ m ∧ kv.1 ≠ k) ∨ kv = (k, v) := by
  simp [mapSet, mem_mapDelete]

theorem keys_mapDelete_nodup {α : Type} (m : List (String × α)) (k : String)
    (h : (m.map Prod.fst).Nodup) : ((mapDelete m k).map Prod.fst).Nodup :=
  ((List.filter_sublist m).map Prod.fst).nodup h

theorem keys_mapSet_nodup {α : Type} (m : List (String × α)) (k : String) (v : α)
    (h : (m.map Prod.fst).Nodup) : ((mapSet m k v).map Prod.fst).Nodup := by
  rw [mapSet, List.map_append]
  refine (keys_mapDelete_nodup m k h).append (by simp) ?_
  intro x hx hxk
  obtain ⟨kv, hkv, rfl⟩ := List.mem_map.mp hx
  have hmem := (mem_mapDelete m k kv).mp hkv
  simp only [List.map_cons, List.map_nil, List.mem_singleton] at hxk
  exact hmem.2 hxk

/-! Lemmas about `fixPath` and the reconstruction step. -/

@[simp] theorem fixPath_id (p : String) (c : CommentInfo) : (fixPath p c).id = c.id := by
  unfold fixPath; split <;> rfl

@[simp] theorem fixPath_inReplyTo (p : String) (c : CommentInfo) :
    (fixPath p c).inReplyTo = c.inReplyTo := by
  unfold fixPath; split <;> rfl

@[simp] theorem fixPath_author (p : String) (c : CommentInfo) :
    (fixPath p c).author = c.author := by
  unfold fixPath; split <;> rfl

@[simp] theorem fixPath_unresolved (p : String) (c : CommentInfo) :
    (fixPath p c).unresolved = c.unresolved := by
  unfold fixPath; split <;> rfl

@[simp] theorem fixPath_updated (p : String) (c : CommentInfo) :
    (fixPath p c).updated = c.updated := by
  unfold fixPath; split <;> rfl

theorem processComment_root (st : RecState) (p : String) (c0 : CommentInfo)
    (h : c0.inReplyTo = "") :
    processComment st p c0 =
      ⟨(if c0.unresolved then mapSet st.threads c0.id (fixPath p c0) else st.threads),
        mapSet st.authors c0.id [c0.author]⟩ := by
  unfold processComment
  simp [h]

theorem processComment_reply (st : RecState) (p : String) (c0 : CommentInfo)
    (h : ¬ c0.inReplyTo = "") :
    processComment st p c0 =
      ⟨(if c0.unresolved then
          mapSet (mapDelete st.threads c0.inReplyTo) c0.id (fixPath p c0)
        else mapDelete st.threads c0.inReplyTo),
        mapSet (mapDelete st.authors c0.inReplyTo) c0.id
          ((mapGet st.authors c0.inReplyTo).getD [] ++ [c0.author])⟩ := by
  unfold processComment
  simp [h]

theorem processFlat_append (st : RecState) (l1 l2 : List (String × CommentInfo)) :
    processFlat st (l1 ++ l2) = processFlat (processFlat st l1) l2 := by
  simp [processFlat, List.foldl_append]

theorem processFlat_cons (st : RecState) (pc : String × CommentInfo)
    (l : List (String × CommentInfo)) :
    processFlat st (pc :: l) = processFlat (processComment st pc.1 pc.2) l := rfl

/-! Lemmas about the sort of thread.go:137-139. -/

theorem insertByUpdated_perm (c : CommentInfo) (l : List CommentInfo) :
    (insertByUpdated c l).Perm (c :: l) := by
  induction l with
  | nil => exact List.Perm.refl _
  | cons d ds ih =>
    by_cases h : c.updated < d.updated
    · rw [insertByUpdated, if_pos h]
    · rw [insertByUpdated, if_neg h]
      exact (ih.cons d).trans (List.Perm.swap c d ds)

theorem sortByUpdated_perm (l : List CommentInfo) : (sortByUpdated l).Perm l := by
  induction l with
  | nil => exact List.Perm.refl _
  | cons c cs ih =>
    exact (insertByUpdated_perm c (sortByUpdated cs)).trans (ih.cons c)

theorem insertByUpdated_mem (c : CommentInfo) (l : List CommentInfo) (x : CommentInfo) :
    x ∈ insertByUpdated c l ↔ x = c ∨ x ∈ l :=
  by simpa using (insertByUpdated_perm c l).mem_iff

theorem insertByUpdated_pairwise (c : CommentInfo) (l : List CommentInfo)
    (h : l.Pairwise (fun a b => a.updated ≤ b.updated)) :
    (insertByUpdated c l).Pairwise (fun a b => a.updated ≤ b.updated) := by
  induction l with
  | nil => simp [insertByUpdated]
  | cons d ds ih =>
    rcases List.pairwise_cons.mp h with ⟨hd, hds⟩
    by_cases hc : c.updated < d.updated
    · rw [insertByUpdated, if_pos hc]
      refine List.pairwise_cons.mpr ⟨?_, h⟩
      intro x hx
      rcases List.mem_cons.mp hx with rfl | hxds
      · exact le_of_lt hc
      · exact le_trans (le_of_lt hc) (hd x hxds)
    · rw [insertByUpdated, if_neg hc]
      refine List.pairwise_cons.mpr ⟨?_, ih hds⟩
      intro x hx
      rcases (insertByUpdated_mem c ds x).mp hx with rfl | hxds
      · exact le_of_not_lt hc
      · exact hd x hxds

theorem sortByUpdated_pairwise (l : List CommentInfo) :
    (sortByUpdated l).Pairwise (fun a b => a.updated ≤ b.updated) := by
  induction l with
  | nil => simp [sortByUpdated]
  | cons c cs ih => exact insertByUpdated_pairwise c (sortByUpdated cs) ih

/-- The `authors` map only ever holds keys that are IDs of already-processed
comments: a key absent initially and not among the processed IDs stays
absent. -/
theorem authors_mapGet_none (l : List (String × CommentInfo)) (st : RecState) (k : String)
    (hst : mapGet st.authors k = none) (hl : k ∉ l.map (fun pc => pc.2.id)) :
    mapGet (processFlat st l).authors k = none := by
  induction l generalizing st with
  | nil => exact hst
  | cons pc rest ih =>
    simp only [List.map_cons, List.mem_cons, not_or] at hl
    rw [processFlat_cons]
    refine ih _ ?_ hl.2
    by_cases h : pc.2.inReplyTo = ""
    · rw [processComment_root st pc.1 pc.2 h]
      show mapGet (mapSet st.authors pc.2.id [pc.2.author]) k = none
      rw [mapGet_mapSet, if_neg hl.1]
      exact hst
    · rw [processComment_reply st pc.1 pc.2 h]
      show mapGet (mapSet (mapDelete st.authors pc.2.inReplyTo) pc.2.id
        ((mapGet st.authors pc.2.inReplyTo).getD [] ++ [pc.2.author])) k = none
      rw [mapGet_mapSet, if_neg hl.1, mapGet_mapDelete]
      by_cases h2 : k = pc.2.inReplyTo
      · rw [if_pos h2]
      · rw [if_neg h2]
        exact hst

/-- Two sorted rearrangements of the same comments coincide when no two of
the comments share an `updated` timestamp. -/
theorem sortedByUpdated_unique (l1 l2 : List CommentInfo) (hp : l1.Perm l2)
    (hs1 : l1.Pairwise (fun a b => a.updated ≤ b.updated))
    (hs2 : l2.Pairwise (fun a b => a.updated ≤ b.updated))
    (hn : (l1.map (fun c => c.updated)).Nodup) : l1 = l2 := by
  have hne1 : l1.Pairwise (fun a b => a.updated ≠ b.updated) := List.pairwise_map.mp hn
  have hn2 : (l2.map (fun c => c.updated)).Nodup :=
    ((hp.map (fun c => c.updated)).nodup_iff).mp hn
  have hne2 : l2.Pairwise (fun a b => a.updated ≠ b.updated) := List.pairwise_map.mp hn2
  have hlt1 : l1.Pairwise (fun a b => a.updated < b.updated) :=
    (hs1.and hne1).imp (fun h => lt_of_le_of_ne h.1 h.2)
  have hlt2 : l2.Pairwise (fun a b => a.updated < b.updated) :=
    (hs2.and hne2).imp (fun h => lt_of_le_of_ne h.1 h.2)
  haveI : IsAntisymm CommentInfo (fun a b => a.updated < b.updated) :=
    ⟨fun a b hab hba => absurd hba (lt_asymm hab)⟩
  exact List.eq_of_perm_of_sorted hp hlt1 hlt2

/-! Claim theorems. -/

/-- C4: when GetChange reports an unresolved-comment count of zero,
`Summarise` performs exactly one fetch — the result is independent of the
comments-fetch result and of the tip-iteration order, so `ListChangeComments`
is never consulted — and returns a Summary whose Threads list is empty and
whose metadata fields (change ID, project, branch, subject, commit message,
timestamps, counts and the three reviewer sets) come from the fetched
change metadata. -/
theorem summarise_fast_path {ε : Type} (ch : ChangeInfo)
    (h : ch.unresolvedCommentCount = 0)
    (lc lc2 : Except ε (List (String × List CommentInfo)))
    (iter iter2 : List CommentInfo → List CommentInfo) :
    summarise (.ok ch) lc iter = summarise (.ok ch) lc2 iter2 ∧
    summarise (.ok ch) lc iter =
      (.ok
        { changeID := toString ch.number
          project := ch.project
          branch := ch.branch
          subject := ch.subject
          latestCommitMessage := commitMessageOf ch.revisions
          allReviewers := (mapGet ch.reviewers "REVIEWER").getD []
          activeReviewers := activeReviewersOf ch.messages
          cced := (mapGet ch.reviewers "CC").getD []
          created := ch.created
          updated := ch.updated
          submitted := ch.submitted
          comments := ch.totalCommentCount
          unresolvedComments := ch.unresolvedCommentCount
          threads := [] }, 1) := by
  constructor <;> simp [summarise, h]

/-- Witness for C4 at a concrete change with zero unresolved comments. -/
theorem summarise_fast_path_witness :
    chFast.unresolvedCommentCount = 0 ∧
    summarise (ε := Unit) (.ok chFast) (.error ()) (fun l => l) =
      summarise (.ok chFast) (.ok cmtsC3) List.reverse :=
  ⟨by decide, (summarise_fast_path chFast (by decide) _ _ _ _).1⟩

/-- C5: for every input (and every iteration order of the surviving-tip
map), the Threads list returned by `Summarise` is sorted non-decreasing by
the `Updated` timestamp of each thread's `LastComment`. -/
theorem summarise_threads_sorted {ε : Type} (g : Except ε ChangeInfo)
    (lc : Except ε (List (String × List CommentInfo)))
    (iter : List CommentInfo → List CommentInfo) :
    (resultThreads (summarise g lc iter)).Pairwise
      (fun t1 t2 => t1.lastComment.updated ≤ t2.lastComment.updated) := by
  cases g with
  | error e => simp [summarise, resultThreads]
  | ok ch =>
    by_cases h : ch.unresolvedCommentCount = 0
    · simp [summarise, h, resultThreads]
    · cases lc with
      | error e => simp [summarise, h, resultThreads]
      | ok comments =>
        have e2 : resultThreads (summarise (ε := ε) (.ok ch) (.ok comments) iter) =
            reconstructThreads comments iter := by
          simp [summarise, h, resultThreads]
        rw [e2]
        simp only [reconstructThreads, List.pairwise_map]
        exact sortByUpdated_pairwise _

/-- C8: a failing GetChange aborts with the wrapped error after one remote
call; on the slow path a failing ListChangeComments aborts with the wrapped
error after the second remote call.  In both cases no Summary is produced,
each remote call is issued at most once (call count 1 resp. 2), and the
underlying error is carried unchanged inside the wrapper. -/
theorem summarise_fetch_error {ε : Type} (e : ε) (ch : ChangeInfo)
    (h : ch.unresolvedCommentCount ≠ 0)
    (lc : Except ε (List (String × List CommentInfo)))
    (iter iter2 : List CommentInfo → List CommentInfo) :
    summarise (.error e) lc iter =
      (.error ⟨"could not get change", e⟩, 1) ∧
    summarise (.ok ch) (.error e) iter2 =
      (.error ⟨"could not list change comments", e⟩, 2) :=
  ⟨rfl, by simp [summarise, h]⟩

/-- Witness for C8 at a concrete change and error value. -/
theorem summarise_fetch_error_witness :
    summarise (.error "boom") (.ok cmtsC1) (fun l => l) =
      (.error ⟨"could not get change", "boom"⟩, 1) ∧
    summarise (.ok chBase) (.error "boom") (fun l => l) =
      (.error ⟨"could not list change comments", "boom"⟩, 2) :=
  summarise_fetch_error "boom" chBase (by decide) _ _ _

/-- C7: a comment whose `InReplyTo` names an ID never stored in the
participants map does not make reconstruction fail: it is processed as a
chain root with an empty prior participant list, so the participant list
stored under its ID is exactly its own author. -/
theorem dangling_reply_treated_as_root (P : List (String × CommentInfo))
    (path : String) (c : CommentInfo) (h1 : c.inReplyTo ≠ "")
    (h2 : c.inReplyTo ∉ P.map (fun pc => pc.2.id)) :
    mapGet (processFlat initState (P ++ [(path, c)])).authors c.id =
      some [c.author] := by
  rw [processFlat_append]
  have hnone : mapGet (processFlat initState P).authors c.inReplyTo = none :=
    authors_mapGet_none P initState c.inReplyTo rfl h2
  show mapGet (processComment (processFlat initState P) path c).authors c.id =
    some [c.author]
  rw [processComment_reply _ _ _ h1]
  show mapGet (mapSet (mapDelete (processFlat initState P).authors c.inReplyTo) c.id
    ((mapGet (processFlat initState P).authors c.inReplyTo).getD [] ++ [c.author]))
      c.id = some [c.author]
  rw [mapGet_mapSet, if_pos rfl, hnone]
  rfl

/-- Witness for C7: a dangling reply processed after one unrelated root. -/
theorem dangling_reply_treated_as_root_witness :
    mapGet (processFlat initState ([("f", cA3)] ++ [("f", cD7)])).authors cD7.id =
      some [cD7.author] :=
  dangling_reply_treated_as_root [("f", cA3)] "f" cD7 (by decide) (by decide)

/-- C10: `Client.Call` rejects any url beginning with "/a/" before a request
exists (the outcome does not depend on the transport and no request value is
produced), and for any other url it issues exactly one request against
root + "/a/" + url with a single leading "/" stripped. -/
theorem call_url_handling {α : Type} (transport transport2 : HttpRequest → α)
    (root user pass method url : String) (body : Option String) :
    (strStarts url "/a/" = true →
      call transport root user pass method url body = .invalidUrl url ∧
      call transport root user pass method url body =
        call transport2 root user pass method url body) ∧
    (strStarts url "/a/" = false →
      call transport root user pass method url body =
        .issued ⟨method, root ++ "/a/" ++ trimOneLeadingSlash url, body, user, pass⟩
          (transport
            ⟨method, root ++ "/a/" ++ trimOneLeadingSlash url, body, user, pass⟩)) := by
  constructor
  · intro h
    constructor <;> simp [call, h]
  · intro h
    simp [call, h]

/-- Witness for C10 at a rejected and at an accepted concrete url. -/
theorem call_url_handling_witness :
    call (fun _ => true) "https://r" "u" "p" "GET" "/a/x" none = .invalidUrl "/a/x" ∧
    call (fun _ => true) "https://r" "u" "p" "GET" "/changes/1" none =
      .issued ⟨"GET", "https://r" ++ "/a/" ++ trimOneLeadingSlash "/changes/1",
        none, "u", "p"⟩ true :=
  ⟨((call_url_handling (fun _ => true) (fun _ => true) "https://r" "u" "p" "GET"
      "/a/x" none).1 (by decide)).1,
    (call_url_handling (fun _ => true) (fun _ => true) "https://r" "u" "p" "GET"
      "/changes/1" none).2 (by decide)⟩

/-- C1 (code defect, thread.go:151): the dedup loop computes the
username-deduplicated participant list `out` but writes the raw list back
(`authors[k] = as`), so an output Thread can carry two accounts with the
same username.  Concretely: a two-comment chain whose authors are distinct
accounts that share the username "bob" yields a Thread whose Authors list
still contains the username "bob" twice. -/
theorem c1_dedup_discarded :
    (∃ t ∈ resultThreads (summarise (ε := Unit) (.ok chBase) (.ok cmtsC1) id),
      ¬ (t.authors.map (fun a => a.username)).Nodup) ∧
    (resultThreads (summarise (ε := Unit) (.ok chBase) (.ok cmtsC1) id)).map
      (fun t => t.authors.map (fun a => a.username)) = [["bob", "bob"]] := by
  constructor
  · decide
  · decide

/-- C2 (same defect as C1): for the single chain root `cA2` followed by
reply `cB2`, both unresolved and authored by distinct accounts with the same
username, exactly one Thread keyed by the reply is produced — but its
Authors list is the raw `[cA2.author, cB2.author]`, not the deduplicated
`[cA2.author]` the claim requires. -/
theorem c2_collapse_without_dedup :
    (resultThreads (summarise (ε := Unit) (.ok chBase) (.ok cmtsC2) id)).map
      (fun t => (t.lastComment, t.authors)) =
      [(cB2, [cA2.author, cB2.author])] ∧
    ¬ ([cA2.author, cB2.author].map (fun a => a.username)).Nodup := by
  constructor
  · decide
  · decide

/-- C3: presence of a chain in the output depends only on the Unresolved
flag of its most recent comment.  A chain of an unresolved root A followed
by a resolved reply B contributes zero Threads, while A (unresolved),
B (resolved), C (unresolved, replying to B) contributes exactly one Thread
whose LastComment is C and whose participant list carries the authors of A,
B and C. -/
theorem tip_resolution_decides (p : String) (A B C : CommentInfo)
    (hA : A.unresolved = true) (hAr : A.inReplyTo = "") (hAid : A.id ≠ "")
    (hB : B.unresolved = false) (hBr : B.inReplyTo = A.id) (hBid : B.id ≠ "")
    (hC : C.unresolved = true) (hCr : C.inReplyTo = B.id) (hCp : C.path ≠ "")
    (iter : List CommentInfo → List CommentInfo) (hiter : ∀ l, (iter l).Perm l) :
    reconstructThreads [(p, [A, B])] iter = [] ∧
    reconstructThreads [(p, [A, B, C])] iter =
      [{ path := C.path, line := C.line, patchSet := C.patchSet
         authors := [A.author, B.author, C.author], message := C.message
         lastComment := C }] := by
  have hBr2 : ¬ B.inReplyTo = "" := by rw [hBr]; exact hAid
  have hCr2 : ¬ C.inReplyTo = "" := by rw [hCr]; exact hBid
  have hfixC : fixPath p C = C := by unfold fixPath; rw [if_neg hCp]
  constructor
  · have e1 : (processAll [(p, [A, B])]).threads = [] := by
      show (processComment (processComment initState p A) p B).threads = []
      rw [processComment_root _ _ _ hAr, processComment_reply _ _ _ hBr2]
      simp [hA, hB, hBr, mapSet, mapDelete, List.filter_cons, initState]
    simp only [reconstructThreads, e1, List.map_nil]
    rw [List.perm_nil.mp (hiter [])]
    rfl
  · have e2 : processAll [(p, [A, B, C])] =
        ⟨[(C.id, C)], [(C.id, [A.author, B.author, C.author])]⟩ := by
      show processComment (processComment (processComment initState p A) p B) p C = _
      rw [processComment_root _ _ _ hAr, processComment_reply _ _ _ hBr2,
        processComment_reply _ _ _ hCr2]
      simp [hA, hB, hC, hBr, hCr, hfixC, mapSet, mapDelete, mapGet,
        List.filter_cons, List.find?_cons, initState]
    have hone : iter [C] = [C] := List.perm_singleton.mp (hiter [C])
    simp only [reconstructThreads, e2, List.map_cons, List.map_nil, hone]
    simp [sortByUpdated, insertByUpdated, applyAuthorsLoop, mapGet_cons]

/-- Witness for C3 at a concrete three-comment chain. -/
theorem tip_resolution_decides_witness :
    reconstructThreads [("f", [cA3, cB3])] id = [] ∧
    reconstructThreads [("f", [cA3, cB3, cC3])] id =
      [{ path := cC3.path, line := cC3.line, patchSet := cC3.patchSet
         authors := [cA3.author, cB3.author, cC3.author], message := cC3.message
         lastComment := cC3 }] :=
  tip_resolution_decides "f" cA3 cB3 cC3 (by decide) (by decide) (by decide)
    (by decide) (by decide) (by decide) (by decide) (by decide) (by decide)
    id (fun l => List.Perm.refl l)

/-- C9 counterexample: with two surviving tips sharing the same `Updated`
timestamp, two runs over identical remote responses that differ only in the
iteration order of the internal tips map produce different Summaries (the
Threads order differs), refuting the claim as stated. -/
theorem c9_ties_not_deterministic :
    ¬ summarise (ε := Unit) (.ok chC9) (.ok cmtsC9) id =
        summarise (ε := Unit) (.ok chC9) (.ok cmtsC9) List.reverse := by
  intro h
  have h2 := congrArg resultThreads h
  revert h2
  decide

/-- C9 amended: running `Summarise` twice against the same remote responses
produces identical Summaries — identical Threads order included — provided
no two surviving tips share the same `Updated` timestamp; the two runs may
traverse the internal tips map in different orders (`iter1`, `iter2`). -/
theorem summarise_deterministic_of_distinct_updated {ε : Type}
    (g : Except ε ChangeInfo) (lc : Except ε (List (String × List CommentInfo)))
    (iter1 iter2 : List CommentInfo → List CommentInfo)
    (h1 : ∀ l, (iter1 l).Perm l) (h2 : ∀ l, (iter2 l).Perm l)
    (hdist : ∀ comments, lc = .ok comments →
      ((processAll comments).threads.map (fun kv => kv.2.updated)).Nodup) :
    summarise g lc iter1 = summarise g lc iter2 := by
  cases g with
  | error e => rfl
  | ok ch =>
    by_cases h : ch.unresolvedCommentCount = 0
    · simp [summarise, h]
    · cases lc with
      | error e => simp [summarise, h]
      | ok comments =>
        have hd := hdist comments rfl
        have hvals : (((processAll comments).threads.map Prod.snd).map
            (fun c => c.updated)).Nodup := by
          rw [List.map_map]
          exact hd
        have hp1 : (sortByUpdated (iter1 ((processAll comments).threads.map
            Prod.snd))).Perm ((processAll comments).threads.map Prod.snd) :=
          (sortByUpdated_perm _).trans (h1 _)
        have hp2 : (sortByUpdated (iter2 ((processAll comments).threads.map
            Prod.snd))).Perm ((processAll comments).threads.map Prod.snd) :=
          (sortByUpdated_perm _).trans (h2 _)
        have hn1 : ((sortByUpdated (iter1 ((processAll comments).threads.map
            Prod.snd))).map (fun c => c.updated)).Nodup :=
          ((hp1.map (fun c => c.updated)).nodup_iff).mpr hvals
        have hueq : sortByUpdated (iter1 ((processAll comments).threads.map Prod.snd)) =
            sortByUpdated (iter2 ((processAll comments).threads.map Prod.snd)) :=
          sortedByUpdated_unique _ _ (hp1.trans hp2.symm)
            (sortByUpdated_pairwise _) (sortByUpdated_pairwise _) hn1
        have key : reconstructThreads comments iter1 = reconstructThreads comments iter2 := by
          simp only [reconstructThreads, hueq]
        simp [summarise, h, key]

theorem chainStep_root_rf (q : (String → String) × (String → Option String))
    (c : CommentInfo) (hcr : c.inReplyTo = "") (y : String) :
    (chainStep q c).1 y = if y = c.id then c.id else q.1 y := by
  simp [chainStep, hcr]

theorem chainStep_root_lf (q : (String → String) × (String → Option String))
    (c : CommentInfo) (hcr : c.inReplyTo = "") (r : String) :
    (chainStep q c).2 r = if r = c.id then some c.id else q.2 r := by
  simp [chainStep, hcr]

theorem chainStep_reply_rf (q : (String → String) × (String → Option String))
    (c : CommentInfo) (hcr : ¬ c.inReplyTo = "") (y : String) :
    (chainStep q c).1 y = if y = c.id then q.1 c.inReplyTo else q.1 y := by
  simp [chainStep, hcr]

theorem chainStep_reply_lf (q : (String → String) × (String → Option String))
    (c : CommentInfo) (hcr : ¬ c.inReplyTo = "") (r : String) :
    (chainStep q c).2 r = if r = q.1 c.inReplyTo then some c.id else q.2 r := by
  simp [chainStep, hcr]

/-- Where entries of the `threads` map can come from after one step: either
an entry that was already there (and, for a reply, not keyed by the ID the
reply removed), or the newly processed comment itself when unresolved. -/
theorem processComment_threads_mem (st : RecState) (p : String) (c : CommentInfo)
    (kv : String × CommentInfo) (h : kv ∈ (processComment st p c).threads) :
    (kv ∈ st.threads ∧ (c.inReplyTo = "" ∨ kv.1 ≠ c.inReplyTo)) ∨
      (kv = (c.id, fixPath p c) ∧ c.unresolved = true) := by
  by_cases hcr : c.inReplyTo = ""
  · rw [processComment_root st p c hcr] at h
    by_cases hu : c.unresolved = true
    · rw [if_pos hu] at h
      replace h : kv ∈ mapSet st.threads c.id (fixPath p c) := h
      rcases (mem_mapSet _ _ _ _).mp h with ⟨h1, _⟩ | h2
      · exact Or.inl ⟨h1, Or.inl hcr⟩
      · exact Or.inr ⟨h2, hu⟩
    · rw [if_neg hu] at h
      replace h : kv ∈ st.threads := h
      exact Or.inl ⟨h, Or.inl hcr⟩
  · rw [processComment_reply st p c hcr] at h
    by_cases hu : c.unresolved = true
    · rw [if_pos hu] at h
      replace h : kv ∈ mapSet (mapDelete st.threads c.inReplyTo) c.id (fixPath p c) := h
      rcases (mem_mapSet _ _ _ _).mp h with ⟨h1, _⟩ | h2
      · have h3 := (mem_mapDelete _ _ _).mp h1
        exact Or.inl ⟨h3.1, Or.inr h3.2⟩
      · exact Or.inr ⟨h2, hu⟩
    · rw [if_neg hu] at h
      replace h : kv ∈ mapDelete st.threads c.inReplyTo := h
      have h3 := (mem_mapDelete _ _ _).mp h
      exact Or.inl ⟨h3.1, Or.inr h3.2⟩

/-- One step preserves the chain invariant. -/
theorem chainInv_step (seenIds seenReplies : List String) (st : RecState)
    (q : (String → String) × (String → Option String))
    (p : String) (c : CommentInfo)
    (inv : ChainInv seenIds seenReplies st q.1 q.2)
    (hfresh : c.id ∉ seenIds)
    (hrep : c.inReplyTo = "" ∨ (c.inReplyTo ∈ seenIds ∧ c.inReplyTo ∉ seenReplies)) :
    ChainInv (seenIds ++ [c.id])
      (if c.inReplyTo = "" then seenReplies else seenReplies ++ [c.inReplyTo])
      (processComment st p c)
      (chainStep q c).1 (chainStep q c).2 := by
  by_cases hcr : c.inReplyTo = ""
  · rw [if_pos hcr]
    refine ⟨?_, ?_, ?_, ?_⟩
    · intro kv hkv
      rcases processComment_threads_mem st p c kv hkv with ⟨hold, _⟩ | ⟨heq, hu⟩
      · obtain ⟨hid, hunres, hmem, hlast⟩ := inv.tEntry kv hold
        have hkne : kv.1 ≠ c.id := fun e => hfresh (e ▸ hmem)
        have hrne : q.1 kv.1 ≠ c.id := fun e => hfresh (e ▸ inv.rootSeen _ hmem)
        refine ⟨hid, hunres, List.mem_append_left _ hmem, ?_⟩
        rw [chainStep_root_rf q c hcr, if_neg hkne, chainStep_root_lf q c hcr, if_neg hrne]
        exact hlast
      · subst heq
        refine ⟨by simp, by simpa using hu, List.mem_append_right _ (by simp), ?_⟩
        simp [chainStep_root_rf q c hcr, chainStep_root_lf q c hcr]
    · intro d hd hdn
      rcases List.mem_append.mp hd with hd1 | hd2
      · have hdne : d ≠ c.id := fun e => hfresh (e ▸ hd1)
        have hrne : q.1 d ≠ c.id := fun e => hfresh (e ▸ inv.rootSeen d hd1)
        rw [chainStep_root_rf q c hcr, if_neg hdne, chainStep_root_lf q c hcr, if_neg hrne]
        exact inv.unrepliedLast d hd1 hdn
      · have he := List.mem_singleton.mp hd2
        subst he
        simp [chainStep_root_rf q c hcr, chainStep_root_lf q c hcr]
    · intro x hx
      have hx1 : x ∉ seenIds := fun h => hx (List.mem_append_left _ h)
      have hx2 : x ≠ c.id := fun e => hx (List.mem_append_right _ (by simp [e]))
      rw [chainStep_root_rf q c hcr, if_neg hx2]
      exact inv.rootFresh x hx1
    · intro d hd
      rcases List.mem_append.mp hd with hd1 | hd2
      · have hdne : d ≠ c.id := fun e => hfresh (e ▸ hd1)
        rw [chainStep_root_rf q c hcr, if_neg hdne]
        exact List.mem_append_left _ (inv.rootSeen d hd1)
      · have he := List.mem_singleton.mp hd2
        subst he
        have e : (chainStep q c).1 c.id = c.id := by
          simp [chainStep_root_rf q c hcr]
        rw [e]
        exact List.mem_append_right _ (by simp)
  · rw [if_neg hcr]
    obtain ⟨hin, hnr⟩ := hrep.resolve_left hcr
    have pl : q.2 (q.1 c.inReplyTo) = some c.inReplyTo := inv.unrepliedLast _ hin hnr
    have factA : ∀ kv ∈ st.threads, kv.1 ≠ c.inReplyTo →
        q.1 kv.1 ≠ q.1 c.inReplyTo := by
      intro kv hkv hne e
      have hlast := (inv.tEntry kv hkv).2.2.2
      rw [e, pl] at hlast
      exact hne (Option.some.inj hlast).symm
    refine ⟨?_, ?_, ?_, ?_⟩
    · intro kv hkv
      rcases processComment_threads_mem st p c kv hkv with ⟨hold, hor⟩ | ⟨heq, hu⟩
      · have hne : kv.1 ≠ c.inReplyTo := hor.resolve_left hcr
        obtain ⟨hid, hunres, hmem, hlast⟩ := inv.tEntry kv hold
        have hkne : kv.1 ≠ c.id := fun e => hfresh (e ▸ hmem)
        have hrne : q.1 kv.1 ≠ q.1 c.inReplyTo := factA kv hold hne
        refine ⟨hid, hunres, List.mem_append_left _ hmem, ?_⟩
        rw [chainStep_reply_rf q c hcr, if_neg hkne, chainStep_reply_lf q c hcr, if_neg hrne]
        exact hlast
      · subst heq
        refine ⟨by simp, by simpa using hu, List.mem_append_right _ (by simp), ?_⟩
        simp [chainStep_reply_rf q c hcr, chainStep_reply_lf q c hcr]
    · intro d hd hdn
      have hdn1 : d ∉ seenReplies := fun h => hdn (List.mem_append_left _ h)
      have hdn2 : d ≠ c.inReplyTo := fun e => hdn (List.mem_append_right _ (by simp [e]))
      rcases List.mem_append.mp hd with hd1 | hd2
      · have hdne : d ≠ c.id := fun e => hfresh (e ▸ hd1)
        have hlast := inv.unrepliedLast d hd1 hdn1
        have hrne : q.1 d ≠ q.1 c.inReplyTo := by
          intro e
          rw [e, pl] at hlast
          exact hdn2 (Option.some.inj hlast).symm
        rw [chainStep_reply_rf q c hcr, if_neg hdne, chainStep_reply_lf q c hcr, if_neg hrne]
        exact inv.unrepliedLast d hd1 hdn1
      · have he := List.mem_singleton.mp hd2
        subst he
        simp [chainStep_reply_rf q c hcr, chainStep_reply_lf q c hcr]
    · intro x hx
      have hx1 : x ∉ seenIds := fun h => hx (List.mem_append_left _ h)
      have hx2 : x ≠ c.id := fun e => hx (List.mem_append_right _ (by simp [e]))
      rw [chainStep_reply_rf q c hcr, if_neg hx2]
      exact inv.rootFresh x hx1
    · intro d hd
      rcases List.mem_append.mp hd with hd1 | hd2
      · have hdne : d ≠ c.id := fun e => hfresh (e ▸ hd1)
        rw [chainStep_reply_rf q c hcr, if_neg hdne]
        exact List.mem_append_left _ (inv.rootSeen d hd1)
      · have he := List.mem_singleton.mp hd2
        subst he
        have e : (chainStep q c).1 c.id = q.1 c.inReplyTo := by
          simp [chainStep_reply_rf q c hcr]
        rw [e]
        exact List.mem_append_left _ (inv.rootSeen _ hin)

/-- The chain invariant holds after processing any well-formed sequence. -/
theorem chainInv_processFlat (l : List (String × CommentInfo)) :
    ∀ (seenIds seenReplies : List String) (st : RecState)
      (q : (String → String) × (String → Option String)),
      wfComments seenIds seenReplies l = true →
      ChainInv seenIds seenReplies st q.1 q.2 →
      ∃ s2 r2, ChainInv s2 r2 (processFlat st l)
        (l.foldl (fun s pc => chainStep s pc.2) q).1
        (l.foldl (fun s pc => chainStep s pc.2) q).2 := by
  induction l with
  | nil =>
    intro si sr st q _ inv
    exact ⟨si, sr, inv⟩
  | cons pc rest ih =>
    intro si sr st q hwf inv
    rw [wfComments] at hwf
    simp only [Bool.and_eq_true] at hwf
    obtain ⟨⟨⟨_, hb⟩, hc⟩, hrest⟩ := hwf
    have hfresh : pc.2.id ∉ si := by simpa using hb
    have hrep : pc.2.inReplyTo = "" ∨
        (pc.2.inReplyTo ∈ si ∧ pc.2.inReplyTo ∉ sr) := by
      simpa using hc
    have step := chainInv_step si sr st q pc.1 pc.2 inv hfresh hrep
    exact ih _ _ _ _ hrest step

/-- The comments list is well-formed on every initial segment. -/
theorem wfComments_append_left (l1 l2 : List (String × CommentInfo)) :
    ∀ si sr, wfComments si sr (l1 ++ l2) = true → wfComments si sr l1 = true := by
  induction l1 with
  | nil => intro si sr _; rfl
  | cons pc rest ih =>
    intro si sr h
    rw [List.cons_append, wfComments] at h
    rw [wfComments]
    simp only [Bool.and_eq_true] at h ⊢
    exact ⟨h.1, ih _ _ h.2⟩

/-- The keys of the live-tip map stay duplicate-free. -/
theorem threads_keys_nodup (l : List (String × CommentInfo)) :
    ∀ st : RecState, (st.threads.map Prod.fst).Nodup →
      ((processFlat st l).threads.map Prod.fst).Nodup := by
  induction l with
  | nil => intro st h; exact h
  | cons pc rest ih =>
    intro st h
    rw [processFlat_cons]
    apply ih
    by_cases hcr : pc.2.inReplyTo = ""
    · rw [processComment_root _ _ _ hcr]
      show (((if pc.2.unresolved = true then
          mapSet st.threads pc.2.id (fixPath pc.1 pc.2)
        else st.threads)).map Prod.fst).Nodup
      split
      · exact keys_mapSet_nodup _ _ _ h
      · exact h
    · rw [processComment_reply _ _ _ hcr]
      show (((if pc.2.unresolved = true then
          mapSet (mapDelete st.threads pc.2.inReplyTo) pc.2.id (fixPath pc.1 pc.2)
        else mapDelete st.threads pc.2.inReplyTo)).map Prod.fst).Nodup
      split
      · exact keys_mapSet_nodup _ _ _ (keys_mapDelete_nodup _ _ h)
      · exact keys_mapDelete_nodup _ _ h

/-- C6: throughout reconstruction of a well-formed input (unique non-empty
IDs, replies referring to an earlier comment, at most one reply per
comment), every comment stored in the live-tip map is unresolved and at most
one live tip exists per chain (tips with equal chain roots coincide, at
every prefix of processing); consequently every output Thread's LastComment
is unresolved and no two output Threads come from the same chain. -/
theorem one_live_tip_per_chain (input : List (String × List CommentInfo))
    (iter : List CommentInfo → List CommentInfo)
    (hiter : ∀ l, (iter l).Perm l)
    (hwf : wfComments [] [] (flattenComments input) = true) :
    (∀ P Q, flattenComments input = P ++ Q →
      (∀ kv ∈ (processFlat initState P).threads, kv.2.unresolved = true) ∧
      (∀ kv1 ∈ (processFlat initState P).threads,
        ∀ kv2 ∈ (processFlat initState P).threads,
        rootAfter P kv1.1 = rootAfter P kv2.1 → kv1.1 = kv2.1)) ∧
    (∀ t ∈ reconstructThreads input iter, t.lastComment.unresolved = true) ∧
    (reconstructThreads input iter).Pairwise (fun t1 t2 =>
      rootAfter (flattenComments input) t1.lastComment.id ≠
        rootAfter (flattenComments input) t2.lastComment.id) := by
  have inv0 : ChainInv [] [] initState
      ((id : String → String), (fun _ : String => (none : Option String))).1
      ((id : String → String), (fun _ : String => (none : Option String))).2 := by
    refine ⟨?_, ?_, ?_, ?_⟩
    · intro kv hkv; cases hkv
    · intro d hd; cases hd
    · intro x _; rfl
    · intro d hd; cases hd
  have main : ∀ P, wfComments [] [] P = true →
      (∀ kv ∈ (processFlat initState P).threads,
        kv.2.id = kv.1 ∧ kv.2.unresolved = true) ∧
      (∀ kv1 ∈ (processFlat initState P).threads,
        ∀ kv2 ∈ (processFlat initState P).threads,
        rootAfter P kv1.1 = rootAfter P kv2.1 → kv1.1 = kv2.1) := by
    intro P hwfP
    obtain ⟨s2, r2, inv⟩ :=
      chainInv_processFlat P [] [] initState
        ((id : String → String), (fun _ : String => (none : Option String))) hwfP inv0
    constructor
    · intro kv hkv
      obtain ⟨hid, hunres, _, _⟩ := inv.tEntry kv hkv
      exact ⟨hid, hunres⟩
    · intro kv1 h1 kv2 h2 he
      have e1 : (chainFold P).2 (rootAfter P kv1.1) = some kv1.1 :=
        (inv.tEntry kv1 h1).2.2.2
      have e2 : (chainFold P).2 (rootAfter P kv2.1) = some kv2.1 :=
        (inv.tEntry kv2 h2).2.2.2
      rw [he] at e1
      exact (Option.some.inj (e2.symm.trans e1)).symm
  refine ⟨?_, ?_, ?_⟩
  · intro P Q hPQ
    have hwfP := wfComments_append_left P Q [] [] (hPQ ▸ hwf)
    obtain ⟨hids, hinj⟩ := main P hwfP
    exact ⟨fun kv hkv => (hids kv hkv).2, hinj⟩
  · intro t ht
    obtain ⟨hids, _⟩ := main (flattenComments input) hwf
    simp only [reconstructThreads, List.mem_map] at ht
    obtain ⟨uc, hucmem, rfl⟩ := ht
    show uc.unresolved = true
    have hucv : uc ∈ (processAll input).threads.map Prod.snd :=
      ((sortByUpdated_perm _).trans (hiter _)).subset hucmem
    obtain ⟨kv, hkv, he⟩ := List.mem_map.mp hucv
    subst he
    exact (hids kv hkv).2
  · obtain ⟨hids, hinj⟩ := main (flattenComments input) hwf
    have hkeysnd : ((processAll input).threads.map Prod.fst).Nodup :=
      threads_keys_nodup (flattenComments input) initState (by simp [initState])
    have hkeyPW : ((processAll input).threads).Pairwise
        (fun kv1 kv2 => kv1.1 ≠ kv2.1) := List.pairwise_map.mp hkeysnd
    have hrootPW : ((processAll input).threads).Pairwise (fun kv1 kv2 =>
        rootAfter (flattenComments input) kv1.2.id ≠
          rootAfter (flattenComments input) kv2.2.id) := by
      refine hkeyPW.imp_of_mem ?_
      intro kv1 kv2 hm1 hm2 hne he
      rw [(hids kv1 hm1).1, (hids kv2 hm2).1] at he
      exact hne (hinj kv1 hm1 kv2 hm2 he)
    have hvalsPW : ((processAll input).threads.map Prod.snd).Pairwise
        (fun u1 u2 => rootAfter (flattenComments input) u1.id ≠
          rootAfter (flattenComments input) u2.id) :=
      List.pairwise_map.mpr hrootPW
    have hperm : (sortByUpdated (iter ((processAll input).threads.map Prod.snd))).Perm
        ((processAll input).threads.map Prod.snd) :=
      (sortByUpdated_perm _).trans (hiter _)
    have hsortedPW := (hperm.pairwise_iff (fun h2 e => h2 e.symm)).mpr hvalsPW
    simp only [reconstructThreads, List.pairwise_map]
    exact hsortedPW

/-- Witness for C6 at the concrete three-comment chain. -/
theorem one_live_tip_per_chain_witness :
    wfComments [] [] (flattenComments cmtsC3) = true ∧
    ((∀ P Q, flattenComments cmtsC3 = P ++ Q →
      (∀ kv ∈ (processFlat initState P).threads, kv.2.unresolved = true) ∧
      (∀ kv1 ∈ (processFlat initState P).threads,
        ∀ kv2 ∈ (processFlat initState P).threads,
        rootAfter P kv1.1 = rootAfter P kv2.1 → kv1.1 = kv2.1)) ∧
    (∀ t ∈ reconstructThreads cmtsC3 id, t.lastComment.unresolved = true) ∧
    (reconstructThreads cmtsC3 id).Pairwise (fun t1 t2 =>
      rootAfter (flattenComments cmtsC3) t1.lastComment.id ≠
        rootAfter (flattenComments cmtsC3) t2.lastComment.id)) :=
  ⟨by decide,
    one_live_tip_per_chain cmtsC3 id (fun l => List.Perm.refl l) (by decide)⟩

/-- Witness for the amended C9 at a concrete input with distinct tip
timestamps and two different iteration orders. -/
theorem summarise_deterministic_witness :
    summarise (ε := Unit) (.ok chC9) (.ok cmtsC9w) id =
      summarise (ε := Unit) (.ok chC9) (.ok cmtsC9w) List.reverse :=
  summarise_deterministic_of_distinct_updated _ _ _ _
    (fun l => List.Perm.refl l) (fun l => List.reverse_perm l)
    (by
      intro comments hc
      injection hc with hc2
      subst hc2
      decide)

end Gerrit
